import Mathlib

/-!
Verification of the planning core of `cleanup/collapse_ci_commits.py`.

The embedded functions follow the Python source:
* `Commit` embeds the `Commit` TypedDict (as produced by `commit_from_pygit2`).
* `SquashPlan` embeds the `SquashPlan` TypedDict.
* `partition_ci_runs` embeds the partitioning loop (lines 99-119); its
  mutable loop state `(runs, current_run)` becomes the arguments of the
  tail-recursive helper `partitionLoop`.
* `build_squash_set` embeds lines 122-128.
* `make_squash_plan` embeds lines 145-164 (logging omitted: it returns
  nothing and mutates nothing).
* `todoLine`, `render_lines` and `render_todo_lines` embed lines 167-173;
  the loop that appends one formatted line per commit becomes a fold.
-/

namespace CollapseCI

/-- A commit record as built by `commit_from_pygit2`: full object id, short
display id, author email and (already trimmed) message. -/
structure Commit where
  oid : String
  short_id : String
  author_email : String
  message : String
deriving DecidableEq

/-- The `SquashPlan` TypedDict: the full commit list, the set of full ids to
squash, the number of runs and the total number of squashed commits. -/
structure SquashPlan where
  commits : List Commit
  squash_set : Finset String
  run_count : Nat
  total_squash_count : Nat
deriving DecidableEq

/-- The per-commit test `is_ci` from line 108 of the source:
`c["author_email"] == target_author and c["message"] == target_message`. -/
def is_ci (target_author target_message : String) (c : Commit) : Bool :=
  c.author_email == target_author && c.message == target_message

/-- The loop of `partition_ci_runs` (lines 104-118): the two mutable
variables `runs` and `current_run` are threaded as arguments; after the
loop a non-empty `current_run` is appended. -/
def partitionLoop (p : Commit → Bool) :
    List (List Commit) → List Commit → List Commit → List (List Commit)
  | runs, cur, [] => if cur.isEmpty then runs else runs ++ [cur]
  | runs, cur, c :: cs =>
    if p c then partitionLoop p runs (cur ++ [c]) cs
    else if cur.isEmpty then partitionLoop p runs [] cs
    else partitionLoop p (runs ++ [cur]) [] cs

/-- `partition_ci_runs` (lines 99-119): returns `[]` on empty input,
otherwise runs the accumulation loop started from empty state. -/
def partition_ci_runs (commits : List Commit)
    (target_author target_message : String) : List (List Commit) :=
  if commits.isEmpty then []
  else partitionLoop (is_ci target_author target_message) [] [] commits

/-- `build_squash_set` (lines 122-128): for each run of length > 1 add the
full ids of all but the first member (`run[1:]`) to the set. -/
def build_squash_set (runs : List (List Commit)) : Finset String :=
  runs.foldl
    (fun s run =>
      if 1 < run.length then s ∪ ((run.drop 1).map Commit.oid).toFinset else s)
    ∅

/-- `make_squash_plan` (lines 145-164): empty `runs` yields the empty plan,
otherwise the plan records `build_squash_set runs`, the run count and the
squash-set cardinality (`len(squash_set)`). -/
def make_squash_plan (commits : List Commit) (runs : List (List Commit)) :
    SquashPlan :=
  if runs.isEmpty then
    { commits := commits, squash_set := ∅, run_count := 0,
      total_squash_count := 0 }
  else
    let squash_set := build_squash_set runs
    { commits := commits, squash_set := squash_set,
      run_count := runs.length, total_squash_count := squash_set.card }

/-- One line of the rebase todo (line 171-172 of the source):
`f"{action} {c['short_id']} {c['message']}"` with `action` chosen by
membership of the full id in the squash set. -/
def todoLine (plan : SquashPlan) (c : Commit) : String :=
  (if c.oid ∈ plan.squash_set then "fixup" else "pick") ++ " " ++
    c.short_id ++ " " ++ c.message

/-- The `lines` list built by the loop of `render_todo_lines`
(lines 169-172). -/
def render_lines (plan : SquashPlan) : List String :=
  plan.commits.foldl (fun lines c => lines ++ [todoLine plan c]) []

/-- `render_todo_lines` (lines 167-173): `"\n".join(lines) + "\n"`. -/
def render_todo_lines (plan : SquashPlan) : String :=
  String.intercalate "\n" (render_lines plan) ++ "\n"

/-! ### A structurally recursive description of the partition loop -/

/-- Structural description of the partition loop: the first run is the
matching head block, the rest is obtained recursively after the block. -/
def runsRec (p : Commit → Bool) : List Commit → List (List Commit)
  | [] => []
  | c :: cs =>
    if p c then (c :: cs.takeWhile p) :: runsRec p (cs.dropWhile p)
    else runsRec p cs
termination_by l => l.length
decreasing_by
  · exact Nat.lt_succ_of_le (List.dropWhile_sublist p).length_le
  · exact Nat.lt_succ_self _

/-! ### Concrete sample data (scenario 1 of the spec, plus variants) -/

/-- Sample CI commit. -/
def cA : Commit := ⟨"aaaa1", "a1", "ci@example.com", "CI: run"⟩

/-- Sample CI commit. -/
def cB : Commit := ⟨"bbbb2", "b2", "ci@example.com", "CI: run"⟩

/-- Sample human commit. -/
def cC : Commit := ⟨"cccc3", "c3", "dev@example.com", "feature"⟩

/-- Sample CI commit separated from the first run by a human commit. -/
def cD : Commit := ⟨"dddd4", "d4", "ci@example.com", "CI: run"⟩

/-- Sample history `[A(ci), B(ci), C(human), D(ci)]`. -/
def demoCommits : List Commit := [cA, cB, cC, cD]

/-- Sample target author. -/
def demoAuthor : String := "ci@example.com"

/-- Sample target message. -/
def demoMessage : String := "CI: run"

/-- A commit that is absent from `demoCommits`. -/
def gB : Commit := ⟨"gggg1", "g1", "ci@example.com", "CI: run"⟩

/-- Another commit that is absent from `demoCommits`. -/
def gC : Commit := ⟨"gggg2", "g2", "ci@example.com", "CI: run"⟩

/-- A commit whose message contains an interior newline. -/
def mlCommit : Commit := ⟨"eeee5", "e5", "dev@example.com", "line1\nline2"⟩

/-- A one-commit plan whose commit message contains a newline. -/
def mlPlan : SquashPlan :=
  { commits := [mlCommit], squash_set := ∅, run_count := 0,
    total_squash_count := 0 }

theorem partitionLoop_append_runs (p : Commit → Bool)
    (runs : List (List Commit)) (cur l) :
    partitionLoop p runs cur l = runs ++ partitionLoop p [] cur l := by
  induction l generalizing runs cur with
  | nil =>
    by_cases hc : cur.isEmpty <;> simp [partitionLoop, hc]
  | cons c cs ih =>
    by_cases hp : p c
    · rw [partitionLoop, if_pos hp, partitionLoop, if_pos hp, ih]
    · by_cases hc : cur.isEmpty
      · rw [partitionLoop, if_neg hp, if_pos hc, partitionLoop, if_neg hp,
          if_pos hc, ih]
      · rw [partitionLoop, if_neg hp, if_neg hc, partitionLoop, if_neg hp,
          if_neg hc]
        simp only [List.nil_append]
        rw [ih (runs ++ [cur]), ih [cur], ← List.append_assoc]

theorem partitionLoop_runsRec (p : Commit → Bool) (l : List Commit) :
    partitionLoop p [] [] l = runsRec p l ∧
      ∀ cur : List Commit, cur ≠ [] →
        partitionLoop p [] cur l =
          (cur ++ l.takeWhile p) :: runsRec p (l.dropWhile p) := by
  induction l with
  | nil =>
    refine ⟨by simp [partitionLoop, runsRec], fun cur hc => ?_⟩
    simp [partitionLoop, runsRec, List.isEmpty_iff, hc]
  | cons c cs ih =>
    by_cases hp : p c
    · constructor
      · rw [partitionLoop, if_pos hp]
        simp only [List.nil_append]
        rw [ih.2 [c] (by simp)]
        simp [runsRec, hp]
      · intro cur hc
        rw [partitionLoop, if_pos hp, ih.2 (cur ++ [c]) (by simp)]
        simp [hp, List.takeWhile_cons, List.dropWhile_cons]
    · constructor
      · rw [partitionLoop, if_neg hp,
          if_pos (show ([] : List Commit).isEmpty = true from rfl), ih.1]
        simp [runsRec, hp]
      · intro cur hc
        rw [partitionLoop, if_neg hp,
          if_neg (by simpa [List.isEmpty_iff] using hc),
          partitionLoop_append_runs, ih.1]
        simp [runsRec, hp, List.takeWhile_cons, List.dropWhile_cons]

theorem partition_eq_runsRec (commits : List Commit) (ta tm : String) :
    partition_ci_runs commits ta tm = runsRec (is_ci ta tm) commits := by
  cases commits with
  | nil => simp [partition_ci_runs, runsRec]
  | cons c cs =>
    rw [partition_ci_runs, if_neg (by simp)]
    exact (partitionLoop_runsRec _ _).1

/-! ### Properties of the run decomposition -/

theorem takeWhile_append_filter_dropWhile (p : Commit → Bool)
    (l : List Commit) :
    l.takeWhile p ++ (l.dropWhile p).filter p = l.filter p := by
  conv_rhs => rw [← List.takeWhile_append_dropWhile (p := p) (l := l)]
  rw [List.filter_append]
  have h1 : (l.takeWhile p).filter p = l.takeWhile p :=
    List.filter_eq_self.mpr fun a ha => List.mem_takeWhile_imp ha
  rw [h1]

theorem flatten_runsRec (p : Commit → Bool) (l : List Commit) :
    (runsRec p l).flatten = l.filter p := by
  induction l using runsRec.induct p with
  | case1 => simp [runsRec]
  | case2 c cs hp ih =>
    simp only [runsRec, hp, if_true, List.flatten_cons, ih,
      List.filter_cons, List.cons_append]
    rw [takeWhile_append_filter_dropWhile]
  | case3 c cs hp ih =>
    rw [runsRec, if_neg hp, List.filter_cons, if_neg hp]
    exact ih

theorem ne_nil_of_mem_runsRec (p : Commit → Bool) (l : List Commit) :
    ∀ r ∈ runsRec p l, r ≠ [] := by
  induction l using runsRec.induct p with
  | case1 => simp [runsRec]
  | case2 c cs hp ih =>
    intro r hr
    simp only [runsRec, hp, if_true, List.mem_cons] at hr
    rcases hr with hr | hr
    · subst hr; simp
    · exact ih r hr
  | case3 c cs hp ih =>
    intro r hr
    simp only [runsRec, hp, if_false] at hr
    exact ih r hr

theorem mem_runsRec_matches (p : Commit → Bool) (l : List Commit) :
    ∀ r ∈ runsRec p l, ∀ c ∈ r, p c = true := by
  induction l using runsRec.induct p with
  | case1 => simp [runsRec]
  | case2 c cs hp ih =>
    intro r hr x hx
    simp only [runsRec, hp, if_true, List.mem_cons] at hr
    rcases hr with hr | hr
    · subst hr
      rcases List.mem_cons.mp hx with hx | hx
      · subst hx; exact hp
      · exact List.mem_takeWhile_imp hx
    · exact ih r hr x hx
  | case3 c cs hp ih =>
    intro r hr x hx
    simp only [runsRec, hp, if_false] at hr
    exact ih r hr x hx

theorem head?_dropWhile_false (p : Commit → Bool) (l : List Commit) :
    ∀ x ∈ (l.dropWhile p).head?, p x = false := by
  intro x hx
  rw [Option.mem_def] at hx
  have h := List.head?_dropWhile_not p l
  rw [hx] at h
  exact h

theorem getLast?_cons_false {q : Commit} {pre : List Commit}
    {p : Commit → Bool} (hq : p q = false)
    (hpre : ∀ x ∈ pre.getLast?, p x = false) :
    ∀ x ∈ (q :: pre).getLast?, p x = false := by
  cases pre with
  | nil =>
    intro x hx
    rw [Option.mem_def, List.getLast?_singleton, Option.some_inj] at hx
    subst hx; exact hq
  | cons q2 pre2 =>
    intro x hx
    rw [List.getLast?_cons_cons] at hx
    exact hpre x hx

theorem runsRec_decomp (p : Commit → Bool) (l : List Commit) :
    ∀ r ∈ runsRec p l, ∃ pre post, l = pre ++ r ++ post ∧
      (∀ x ∈ pre.getLast?, p x = false) ∧
      (∀ x ∈ post.head?, p x = false) := by
  induction l using runsRec.induct p with
  | case1 => simp [runsRec]
  | case2 c cs hp ih =>
    intro r hr
    simp only [runsRec, hp, if_true, List.mem_cons] at hr
    rcases hr with hr | hr
    · refine ⟨[], cs.dropWhile p, ?_, by simp, head?_dropWhile_false p cs⟩
      subst hr
      simp [List.takeWhile_append_dropWhile]
    · obtain ⟨pre, post, hl, hpre, hpost⟩ := ih r hr
      cases pre with
      | nil =>
        exfalso
        obtain ⟨y, t, rfl⟩ :=
          List.exists_cons_of_ne_nil (ne_nil_of_mem_runsRec p _ r hr)
        have hy : p y = false := by
          apply head?_dropWhile_false p cs
          rw [hl]
          simp
        have hy2 : p y = true :=
          mem_runsRec_matches p _ (y :: t) hr y (List.mem_cons_self y t)
        rw [hy2] at hy
        exact Bool.noConfusion hy
      | cons q pre2 =>
        refine ⟨c :: cs.takeWhile p ++ (q :: pre2), post, ?_, ?_, hpost⟩
        · have : c :: cs = c :: cs.takeWhile p ++ cs.dropWhile p := by
            simp [List.takeWhile_append_dropWhile]
          rw [this, hl]
          simp
        · intro x hx
          rw [List.getLast?_append] at hx
          have hne : (q :: pre2) ≠ ([] : List Commit) := by simp
          obtain ⟨z, hz⟩ :=
            Option.isSome_iff_exists.mp (List.getLast?_isSome.mpr hne)
          rw [hz, Option.or_some, ← hz] at hx
          exact hpre x hx
  | case3 c cs hp ih =>
    intro r hr
    simp only [runsRec, hp, if_false] at hr
    obtain ⟨pre, post, hl, hpre, hpost⟩ := ih r hr
    exact ⟨c :: pre, post, by simp [hl],
      getLast?_cons_false (by simpa using hp) hpre, hpost⟩

/-! ### Properties of the squash set and the plan -/

theorem mem_build_squash_aux (runs : List (List Commit)) (s : Finset String)
    (x : String) :
    (x ∈ runs.foldl
        (fun s run =>
          if 1 < run.length then s ∪ ((run.drop 1).map Commit.oid).toFinset
          else s) s) ↔
      x ∈ s ∨ ∃ run ∈ runs, 1 < run.length ∧
        x ∈ (run.drop 1).map Commit.oid := by
  induction runs generalizing s with
  | nil => simp
  | cons run rest ih =>
    rw [List.foldl_cons, ih]
    by_cases h : 1 < run.length
    · simp [h, Finset.mem_union, List.mem_toFinset, or_assoc]
    · simp [h]

theorem mem_build_squash_set (runs : List (List Commit)) (x : String) :
    x ∈ build_squash_set runs ↔
      ∃ run ∈ runs, 1 < run.length ∧ x ∈ (run.drop 1).map Commit.oid := by
  rw [build_squash_set, mem_build_squash_aux]
  simp

theorem squash_set_make (commits : List Commit) (runs : List (List Commit)) :
    (make_squash_plan commits runs).squash_set = build_squash_set runs := by
  by_cases h : runs.isEmpty
  · rw [make_squash_plan, if_pos h, List.isEmpty_iff.mp h]
    rfl
  · rw [make_squash_plan, if_neg h]

theorem total_eq_card (commits : List Commit) (runs : List (List Commit)) :
    (make_squash_plan commits runs).total_squash_count =
      (make_squash_plan commits runs).squash_set.card := by
  by_cases h : runs.isEmpty
  · rw [make_squash_plan, if_pos h]
    rfl
  · rw [make_squash_plan, if_neg h]

theorem le_sum_map_of_mem {α : Type} {l : List α} {a : α} (g : α → Nat)
    (ha : a ∈ l) : g a ≤ (l.map g).sum := by
  induction l with
  | nil => cases ha
  | cons b bs ih =>
    rw [List.map_cons, List.sum_cons]
    rcases List.mem_cons.mp ha with h | h
    · subst h; exact Nat.le_add_right _ _
    · exact le_trans (ih h) (Nat.le_add_left _ _)

theorem add_le_sum_map_of_two_mem {α : Type} {l : List α} (g : α → Nat) :
    ∀ {a b : α}, a ∈ l → b ∈ l → a ≠ b → g a + g b ≤ (l.map g).sum := by
  induction l with
  | nil => intro a b ha _ _; cases ha
  | cons x xs ih =>
    intro a b ha hb hab
    rw [List.map_cons, List.sum_cons]
    rcases List.mem_cons.mp ha with h1 | h1
    · subst h1
      have hb2 : b ∈ xs := by
        rcases List.mem_cons.mp hb with h2 | h2
        · exact absurd h2.symm hab
        · exact h2
      have := le_sum_map_of_mem g hb2
      omega
    · rcases List.mem_cons.mp hb with h2 | h2
      · subst h2
        have := le_sum_map_of_mem g h1
        omega
      · have := ih h1 h2 hab
        omega

theorem head_not_mem_tails (rs : List (List Commit))
    (hnd : ((rs.flatten).map Commit.oid).Nodup) {h : Commit}
    {t : List Commit} (hr : (h :: t) ∈ rs) :
    ¬ ∃ s ∈ rs, 1 < s.length ∧ h.oid ∈ (s.drop 1).map Commit.oid := by
  rintro ⟨s, hs, hlen, hmem⟩
  have hcnt : ((rs.flatten).map Commit.oid).count h.oid ≤ 1 :=
    List.nodup_iff_count_le_one.mp hnd h.oid
  have hflat : ((rs.flatten).map Commit.oid).count h.oid =
      (rs.map (fun u => (u.map Commit.oid).count h.oid)).sum := by
    rw [List.map_flatten, List.count_flatten, List.map_map]
    rfl
  rw [hflat] at hcnt
  by_cases hsr : s = h :: t
  · subst hsr
    have hmem2 : h.oid ∈ List.map Commit.oid t := hmem
    have h2 : 2 ≤ ((h :: t).map Commit.oid).count h.oid := by
      rw [List.map_cons, List.count_cons_self]
      have h0 := List.count_pos_iff.mpr hmem2
      omega
    have hle :=
      le_sum_map_of_mem (fun u => (u.map Commit.oid).count h.oid) hr
    simp only at hle
    omega
  · have h1 : 0 < ((h :: t).map Commit.oid).count h.oid :=
      List.count_pos_iff.mpr (by simp)
    have h2 : 0 < (s.map Commit.oid).count h.oid := by
      apply List.count_pos_iff.mpr
      have hsub : List.Sublist ((s.drop 1).map Commit.oid)
          (s.map Commit.oid) :=
        (List.drop_sublist 1 s).map Commit.oid
      exact hsub.subset hmem
    have hboth :=
      add_le_sum_map_of_two_mem
        (fun u => (u.map Commit.oid).count h.oid) hr hs
        (fun he => hsr he.symm)
    simp only at hboth
    omega

theorem flatten_partition_nodup (commits : List Commit) (ta tm : String)
    (hnd : (commits.map Commit.oid).Nodup) :
    (((partition_ci_runs commits ta tm).flatten).map Commit.oid).Nodup := by
  rw [partition_eq_runsRec, flatten_runsRec]
  exact ((List.filter_sublist commits).map Commit.oid).nodup hnd

theorem head_oid_not_mem_build (commits : List Commit) (ta tm : String)
    (hnd : (commits.map Commit.oid).Nodup) {h : Commit} {t : List Commit}
    (hr : (h :: t) ∈ partition_ci_runs commits ta tm) :
    h.oid ∉ build_squash_set (partition_ci_runs commits ta tm) := by
  intro hmem
  rw [mem_build_squash_set] at hmem
  exact head_not_mem_tails _ (flatten_partition_nodup commits ta tm hnd)
    hr hmem

theorem mem_commits_of_mem_run {commits : List Commit} {ta tm : String}
    {r : List Commit} (hr : r ∈ partition_ci_runs commits ta tm) {c : Commit}
    (hc : c ∈ r) : c ∈ commits := by
  have hm : c ∈ (partition_ci_runs commits ta tm).flatten :=
    List.mem_flatten.mpr ⟨r, hr, hc⟩
  rw [partition_eq_runsRec, flatten_runsRec] at hm
  exact List.mem_of_mem_filter hm

/-! ### Properties of the renderer -/

theorem foldl_append_map (plan : SquashPlan) (l : List Commit)
    (acc : List String) :
    l.foldl (fun lines c => lines ++ [todoLine plan c]) acc =
      acc ++ l.map (todoLine plan) := by
  induction l generalizing acc with
  | nil => simp
  | cons c cs ih =>
    rw [List.foldl_cons, ih]
    simp

theorem render_lines_eq_map (plan : SquashPlan) :
    render_lines plan = plan.commits.map (todoLine plan) := by
  rw [render_lines, foldl_append_map]
  exact List.nil_append _

theorem pick_ne_fixup (x y : String) : ("pick " ++ x) ≠ ("fixup " ++ y) := by
  intro he
  have hd := congrArg String.data he
  rw [String.data_append, String.data_append] at hd
  have h1 : "pick ".data = ['p', 'i', 'c', 'k', ' '] := rfl
  have h2 : "fixup ".data = ['f', 'i', 'x', 'u', 'p', ' '] := rfl
  rw [h1, h2] at hd
  simp only [List.cons_append, List.nil_append] at hd
  injection hd with h3 _
  exact absurd h3 (by decide)

theorem todoLine_eq (plan : SquashPlan) (c : Commit) :
    todoLine plan c =
      (if c.oid ∈ plan.squash_set then "fixup " else "pick ") ++
        (c.short_id ++ " " ++ c.message) := by
  have hfx : ("fixup" ++ " " : String) = "fixup " := rfl
  have hpk : ("pick" ++ " " : String) = "pick " := rfl
  rw [todoLine]
  by_cases hm : c.oid ∈ plan.squash_set
  · rw [if_pos hm, if_pos hm, hfx]
    simp only [String.append_assoc]
  · rw [if_neg hm, if_neg hm, hpk]
    simp only [String.append_assoc]

/-! ### Claim theorems (first batch) -/

/-- C2: `render` produces exactly one instruction line per element of
`plan.commits`, in the same order, each of the form
`<action> <short_id> <message>` where the action is `fixup` when the
commit's full id is in the squash set and `pick` otherwise. -/
theorem render_lines_spec (plan : SquashPlan) :
    render_lines plan = plan.commits.map (fun c =>
      (if c.oid ∈ plan.squash_set then "fixup" else "pick") ++ " " ++
        c.short_id ++ " " ++ c.message) ∧
    (render_lines plan).length = plan.commits.length := by
  refine ⟨?_, ?_⟩
  · rw [render_lines_eq_map]
    rfl
  · rw [render_lines_eq_map, List.length_map]

/-- C4: concatenating the members of all runs returned by the partition,
in output order, yields exactly the subsequence of the input commits that
match the target signature, in their original relative order. -/
theorem partition_flatten_eq_filter (commits : List Commit)
    (ta tm : String) :
    (partition_ci_runs commits ta tm).flatten =
      commits.filter (is_ci ta tm) := by
  rw [partition_eq_runsRec, flatten_runsRec]

/-- C5: every run returned by the partition is non-empty, all of its
members match the target signature, and it is a contiguous maximal block:
the commit just before it and the commit just after it (when they exist)
do not match the signature. -/
theorem partition_runs_spec (commits : List Commit) (ta tm : String) :
    ∀ run ∈ partition_ci_runs commits ta tm,
      run ≠ [] ∧ (∀ c ∈ run, is_ci ta tm c = true) ∧
        ∃ pre post, commits = pre ++ run ++ post ∧
          (∀ x ∈ pre.getLast?, is_ci ta tm x = false) ∧
          (∀ x ∈ post.head?, is_ci ta tm x = false) := by
  intro run hrun
  rw [partition_eq_runsRec] at hrun
  exact ⟨ne_nil_of_mem_runsRec _ _ run hrun,
    mem_runsRec_matches _ _ run hrun, runsRec_decomp _ _ run hrun⟩

/-- Witness for C5 on the sample history: the run `[cA, cB]`. -/
theorem partition_runs_spec_witness :
    [cA, cB] ∈ partition_ci_runs demoCommits demoAuthor demoMessage ∧
      ([cA, cB] ≠ [] ∧
        (∀ c ∈ [cA, cB], is_ci demoAuthor demoMessage c = true) ∧
        ∃ pre post, demoCommits = pre ++ [cA, cB] ++ post ∧
          (∀ x ∈ pre.getLast?, is_ci demoAuthor demoMessage x = false) ∧
          (∀ x ∈ post.head?, is_ci demoAuthor demoMessage x = false)) :=
  ⟨by decide,
    partition_runs_spec demoCommits demoAuthor demoMessage [cA, cB]
      (by decide)⟩

/-- C7: planning with an empty run list returns a plan with an empty
squash set, zero run count, zero squash count and the commits unchanged;
it is an ordinary value, not an error. -/
theorem empty_runs_plan_spec (commits : List Commit) :
    make_squash_plan commits [] =
      { commits := commits, squash_set := ∅, run_count := 0,
        total_squash_count := 0 } := rfl

/-- C9: rendering a plan whose commit list is empty yields the single
newline string, and in general the rendered output is the per-commit lines
joined by newlines followed by one trailing newline. -/
theorem render_empty_newline_spec :
    (∀ s rc tc, render_todo_lines ⟨[], s, rc, tc⟩ = "\n") ∧
      ∀ plan : SquashPlan, render_todo_lines plan =
        String.intercalate "\n" (render_lines plan) ++ "\n" :=
  ⟨fun _ _ _ => rfl, fun _ => rfl⟩

theorem make_commits (commits : List Commit) (runs : List (List Commit)) :
    (make_squash_plan commits runs).commits = commits := by
  by_cases h : runs.isEmpty
  · rw [make_squash_plan, if_pos h]
  · rw [make_squash_plan, if_neg h]

/-- C1: with pairwise-distinct ids, a commit's id is in the squash set of
the composed pipeline iff that commit is a non-first member of some run of
length > 1; moreover the first member of any run is never in the squash
set. -/
theorem fold_set_membership_spec (commits : List Commit) (ta tm : String)
    (hnd : (commits.map Commit.oid).Nodup) :
    (∀ c ∈ commits,
      (c.oid ∈ (make_squash_plan commits
          (partition_ci_runs commits ta tm)).squash_set ↔
        ∃ run ∈ partition_ci_runs commits ta tm,
          1 < run.length ∧ c ∈ run.drop 1)) ∧
    (∀ run ∈ partition_ci_runs commits ta tm, ∀ h ∈ run.head?,
      h.oid ∉ (make_squash_plan commits
          (partition_ci_runs commits ta tm)).squash_set) := by
  simp only [squash_set_make]
  constructor
  · intro c hc
    rw [mem_build_squash_set]
    constructor
    · rintro ⟨run, hrun, hlen, hmem⟩
      obtain ⟨c2, hc2, hoid⟩ := List.mem_map.mp hmem
      have hc2commits : c2 ∈ commits :=
        mem_commits_of_mem_run hrun (List.mem_of_mem_drop hc2)
      have he : c2 = c :=
        List.inj_on_of_nodup_map hnd hc2commits hc hoid
      subst he
      exact ⟨run, hrun, hlen, hc2⟩
    · rintro ⟨run, hrun, hlen, hmem⟩
      exact ⟨run, hrun, hlen, List.mem_map_of_mem Commit.oid hmem⟩
  · intro run hrun h hh
    rw [Option.mem_def] at hh
    cases run with
    | nil => simp at hh
    | cons r0 rt =>
      rw [List.head?_cons, Option.some_inj] at hh
      subst hh
      exact head_oid_not_mem_build commits ta tm hnd hrun

/-- Witness for C1 on the sample history. -/
theorem fold_set_membership_spec_witness :
    (demoCommits.map Commit.oid).Nodup ∧
      ((∀ c ∈ demoCommits,
        (c.oid ∈ (make_squash_plan demoCommits
            (partition_ci_runs demoCommits demoAuthor
              demoMessage)).squash_set ↔
          ∃ run ∈ partition_ci_runs demoCommits demoAuthor demoMessage,
            1 < run.length ∧ c ∈ run.drop 1)) ∧
      (∀ run ∈ partition_ci_runs demoCommits demoAuthor demoMessage,
        ∀ h ∈ run.head?,
        h.oid ∉ (make_squash_plan demoCommits
            (partition_ci_runs demoCommits demoAuthor
              demoMessage)).squash_set)) :=
  ⟨by decide,
    fold_set_membership_spec demoCommits demoAuthor demoMessage (by decide)⟩

/-! ### Counting the squash set -/

theorem flatten_map_sublist {α β : Type} (f g : α → List β) (l : List α)
    (h : ∀ a ∈ l, List.Sublist (f a) (g a)) :
    List.Sublist ((l.map f).flatten) ((l.map g).flatten) := by
  induction l with
  | nil => simp
  | cons a as ih =>
    simp only [List.map_cons, List.flatten_cons]
    exact (h a (List.mem_cons_self a as)).append
      (ih fun x hx => h x (List.mem_cons_of_mem a hx))

theorem build_squash_set_eq_toFinset (runs : List (List Commit)) :
    build_squash_set runs =
      ((runs.map (fun r => (r.drop 1).map Commit.oid)).flatten).toFinset := by
  ext x
  rw [mem_build_squash_set, List.mem_toFinset, List.mem_flatten]
  constructor
  · rintro ⟨run, hrun, hlen, hmem⟩
    exact ⟨(run.drop 1).map Commit.oid, List.mem_map_of_mem _ hrun, hmem⟩
  · rintro ⟨l2, hl2, hmem⟩
    obtain ⟨run, hrun, rfl⟩ := List.mem_map.mp hl2
    by_cases hlen : 1 < run.length
    · exact ⟨run, hrun, hlen, hmem⟩
    · exfalso
      have hz : run.drop 1 = [] := List.drop_eq_nil_of_le (by omega)
      rw [hz] at hmem
      simp at hmem

theorem tails_flatten_nodup (commits : List Commit) (ta tm : String)
    (hnd : (commits.map Commit.oid).Nodup) :
    (((partition_ci_runs commits ta tm).map
        (fun r => (r.drop 1).map Commit.oid)).flatten).Nodup := by
  have hsub : List.Sublist
      (((partition_ci_runs commits ta tm).map
        (fun r => (r.drop 1).map Commit.oid)).flatten)
      (((partition_ci_runs commits ta tm).map
        (List.map Commit.oid)).flatten) :=
    flatten_map_sublist _ _ _
      fun r _ => (List.drop_sublist 1 r).map Commit.oid
  have hnd2 : (((partition_ci_runs commits ta tm).map
      (List.map Commit.oid)).flatten).Nodup := by
    rw [← List.map_flatten]
    exact flatten_partition_nodup commits ta tm hnd
  exact hsub.nodup hnd2

/-- C6: with pairwise-distinct ids, the plan's total squash count equals
the sum over all runs of (length − 1) (truncated subtraction, so a run of
length 1 contributes 0) and equals the cardinality of the squash set. -/
theorem fold_count_spec (commits : List Commit) (ta tm : String)
    (hnd : (commits.map Commit.oid).Nodup) :
    (make_squash_plan commits
        (partition_ci_runs commits ta tm)).total_squash_count =
      ((partition_ci_runs commits ta tm).map
        (fun r => r.length - 1)).sum ∧
    (make_squash_plan commits
        (partition_ci_runs commits ta tm)).total_squash_count =
      (make_squash_plan commits
        (partition_ci_runs commits ta tm)).squash_set.card := by
  refine ⟨?_, total_eq_card _ _⟩
  rw [total_eq_card, squash_set_make, build_squash_set_eq_toFinset,
    List.toFinset_card_of_nodup (tails_flatten_nodup commits ta tm hnd),
    List.length_flatten, List.map_map]
  congr 1
  have he : (List.length ∘ fun r : List Commit =>
      List.map Commit.oid (List.drop 1 r)) =
      fun r : List Commit => r.length - 1 := by
    funext r
    simp [List.length_drop]
  rw [he]

/-- Witness for C6 on the sample history. -/
theorem fold_count_spec_witness :
    (demoCommits.map Commit.oid).Nodup ∧
      ((make_squash_plan demoCommits (partition_ci_runs demoCommits
          demoAuthor demoMessage)).total_squash_count =
        ((partition_ci_runs demoCommits demoAuthor demoMessage).map
          (fun r => r.length - 1)).sum ∧
      (make_squash_plan demoCommits (partition_ci_runs demoCommits
          demoAuthor demoMessage)).total_squash_count =
        (make_squash_plan demoCommits (partition_ci_runs demoCommits
          demoAuthor demoMessage)).squash_set.card) :=
  ⟨by decide, fold_count_spec demoCommits demoAuthor demoMessage (by decide)⟩

/-! ### Plan behaviour on malformed runs -/

/-- C3 counterexample: called with a run both of whose members are absent
from `commits`, `make_squash_plan` does not abort or signal anything: it
returns an ordinary plan, and the absent id `"gggg2"` is placed in the
squash set. -/
theorem plan_returns_on_foreign_run :
    make_squash_plan [cC] [[gB, gC]] =
      { commits := [cC], squash_set := {"gggg2"}, run_count := 1,
        total_squash_count := 1 } ∧
    gB ∉ ([cC] : List Commit) ∧ gC ∉ ([cC] : List Commit) := by
  decide

/-- C3 amended: `make_squash_plan` performs no membership validation and
cannot abort: it always returns a plan whose commit list is the input, and
a run member absent from `commits` still contributes its id to the squash
set whenever its run has length > 1 (nothing is dropped or substituted,
and no error is signalled). -/
theorem plan_no_validation_spec (commits : List Commit)
    (runs : List (List Commit)) :
    (make_squash_plan commits runs).commits = commits ∧
    ∀ run ∈ runs, 1 < run.length → ∀ c ∈ run.drop 1, c ∉ commits →
      c.oid ∈ (make_squash_plan commits runs).squash_set := by
  refine ⟨make_commits commits runs, ?_⟩
  intro run hrun hlen c hc _
  rw [squash_set_make, mem_build_squash_set]
  exact ⟨run, hrun, hlen, List.mem_map_of_mem _ hc⟩

/-- Witness for the amended C3 statement at a concrete foreign run. -/
theorem plan_no_validation_spec_witness :
    ([gB, gC] ∈ [[gB, gC]] ∧ 1 < ([gB, gC] : List Commit).length ∧
      gC ∈ ([gB, gC] : List Commit).drop 1 ∧ gC ∉ ([cC] : List Commit)) ∧
    ((make_squash_plan [cC] [[gB, gC]]).commits = [cC] ∧
      gC.oid ∈ (make_squash_plan [cC] [[gB, gC]]).squash_set) :=
  ⟨by decide,
    (plan_no_validation_spec [cC] [[gB, gC]]).1,
    (plan_no_validation_spec [cC] [[gB, gC]]).2 [gB, gC] (by decide)
      (by decide) gC (by decide) (by decide)⟩

/-! ### A squashed commit always has an earlier kept commit -/

theorem render_lines_get (plan : SquashPlan) (k : Nat)
    (hk : k < (render_lines plan).length) :
    ∃ hk2 : k < plan.commits.length,
      (render_lines plan).get ⟨k, hk⟩ =
        todoLine plan (plan.commits.get ⟨k, hk2⟩) := by
  have hlen : (render_lines plan).length = plan.commits.length := by
    rw [render_lines_eq_map, List.length_map]
  have hk2 : k < plan.commits.length := hlen ▸ hk
  refine ⟨hk2, ?_⟩
  rw [List.get_eq_getElem, List.get_eq_getElem,
    List.getElem_of_eq (render_lines_eq_map plan), List.getElem_map]

theorem squash_mem_preceding_keep (commits : List Commit) (ta tm : String)
    (hnd : (commits.map Commit.oid).Nodup) (i : Nat)
    (hi : i < commits.length)
    (hm : (commits.get ⟨i, hi⟩).oid ∈
      build_squash_set (partition_ci_runs commits ta tm)) :
    ∃ j, j < i ∧ ∃ hj : j < commits.length,
      (commits.get ⟨j, hj⟩).oid ∉
        build_squash_set (partition_ci_runs commits ta tm) := by
  rw [mem_build_squash_set] at hm
  obtain ⟨run, hrun, hlen, hmem⟩ := hm
  obtain ⟨c2, hc2, hoid⟩ := List.mem_map.mp hmem
  have hc2commits : c2 ∈ commits :=
    mem_commits_of_mem_run hrun (List.mem_of_mem_drop hc2)
  have hci : commits.get ⟨i, hi⟩ ∈ commits := List.get_mem _ _ _
  have heq : c2 = commits.get ⟨i, hi⟩ :=
    List.inj_on_of_nodup_map hnd hc2commits hci hoid
  have hrunR := hrun
  rw [partition_eq_runsRec] at hrunR
  have hne := ne_nil_of_mem_runsRec _ _ run hrunR
  obtain ⟨pre, post, hsplit, hpre, hpost⟩ := runsRec_decomp _ _ run hrunR
  obtain ⟨h0, t, rfl⟩ := List.exists_cons_of_ne_nil hne
  have hc2t : c2 ∈ t := hc2
  obtain ⟨k, hk, hkval⟩ := List.getElem_of_mem hc2t
  have hsplit2 : commits = pre ++ (h0 :: (t ++ post)) := by
    rw [hsplit]
    simp
  have hL : commits.length = pre.length + (t.length + 1 + post.length) := by
    rw [hsplit2]
    simp [List.length_append, List.length_cons]
    omega
  have hj : pre.length < commits.length := by omega
  have hjval : commits.get ⟨pre.length, hj⟩ = h0 := by
    rw [List.get_eq_getElem, List.getElem_of_eq hsplit2,
      List.getElem_append_right (Nat.le_refl _)]
    simp
  have hp2 : pre.length + (k + 1) < commits.length := by omega
  have hp2val : commits.get ⟨pre.length + (k + 1), hp2⟩ = c2 := by
    rw [List.get_eq_getElem, List.getElem_of_eq hsplit2,
      List.getElem_append_right (Nat.le_add_right _ _)]
    simp only [Nat.add_sub_cancel_left, List.getElem_cons_succ]
    rw [List.getElem_append_left hk]
    exact hkval
  have hndc : commits.Nodup := List.Nodup.of_map Commit.oid hnd
  have hfe : (⟨pre.length + (k + 1), hp2⟩ : Fin commits.length) = ⟨i, hi⟩ :=
    (hndc.get_inj_iff).mp (hp2val.trans heq)
  have hlt : pre.length < i := by
    have hv := Fin.val_eq_of_eq hfe
    simp only at hv
    omega
  refine ⟨pre.length, hlt, hj, ?_⟩
  rw [hjval]
  have hrun0 : (h0 :: t) ∈ partition_ci_runs commits ta tm := hrun
  exact head_oid_not_mem_build commits ta tm hnd hrun0

/-- C8: with pairwise-distinct ids, in the rendered instruction list of the
composed pipeline every `fixup` line has at least one `pick` line strictly
before it. -/
theorem fold_preceded_by_keep (commits : List Commit) (ta tm : String)
    (hnd : (commits.map Commit.oid).Nodup) :
    ∀ i, ∀ hi : i < (render_lines (make_squash_plan commits
        (partition_ci_runs commits ta tm))).length,
      (∃ rest, (render_lines (make_squash_plan commits
          (partition_ci_runs commits ta tm))).get ⟨i, hi⟩ =
        "fixup " ++ rest) →
      ∃ j, j < i ∧ ∃ hj : j < (render_lines (make_squash_plan commits
          (partition_ci_runs commits ta tm))).length,
        ∃ rest2, (render_lines (make_squash_plan commits
          (partition_ci_runs commits ta tm))).get ⟨j, hj⟩ =
          "pick " ++ rest2 := by
  intro i hi hfix
  have hcg : ∀ k (hx : k < (make_squash_plan commits
      (partition_ci_runs commits ta tm)).commits.length),
      ∃ hx2 : k < commits.length,
        (make_squash_plan commits
          (partition_ci_runs commits ta tm)).commits.get ⟨k, hx⟩ =
          commits.get ⟨k, hx2⟩ := by
    intro k hx
    have hx2 : k < commits.length := by
      rw [← make_commits commits (partition_ci_runs commits ta tm)]
      exact hx
    refine ⟨hx2, ?_⟩
    rw [List.get_eq_getElem, List.get_eq_getElem,
      List.getElem_of_eq (make_commits _ _)]
  obtain ⟨hi2, hget⟩ := render_lines_get _ i hi
  obtain ⟨rest, hrest⟩ := hfix
  rw [hget, todoLine_eq] at hrest
  obtain ⟨hi3, hci⟩ := hcg i hi2
  by_cases hm : ((make_squash_plan commits
      (partition_ci_runs commits ta tm)).commits.get ⟨i, hi2⟩).oid ∈
      (make_squash_plan commits
        (partition_ci_runs commits ta tm)).squash_set
  · rw [hci, squash_set_make] at hm
    obtain ⟨j, hji, hj3, hnotmem⟩ :=
      squash_mem_preceding_keep commits ta tm hnd i hi3 hm
    have hjlen : j < (render_lines (make_squash_plan commits
        (partition_ci_runs commits ta tm))).length := by
      rw [render_lines_eq_map, List.length_map, make_commits]
      exact hj3
    obtain ⟨hj2, hgetj⟩ := render_lines_get _ j hjlen
    obtain ⟨hj5, hcj⟩ := hcg j hj2
    refine ⟨j, hji, hjlen,
      (commits.get ⟨j, hj5⟩).short_id ++ " " ++
        (commits.get ⟨j, hj5⟩).message, ?_⟩
    rw [hgetj, hcj, todoLine_eq, squash_set_make, if_neg hnotmem]
  · rw [if_neg hm] at hrest
    exact absurd hrest (pick_ne_fixup _ rest)

/-- Witness for C8 on the sample history: line 1 is a `fixup` line and
line 0 is a `pick` line. -/
theorem fold_preceded_by_keep_witness :
    (demoCommits.map Commit.oid).Nodup ∧
      ∃ hi : 1 < (render_lines (make_squash_plan demoCommits
          (partition_ci_runs demoCommits demoAuthor
            demoMessage))).length,
        (∃ rest, (render_lines (make_squash_plan demoCommits
            (partition_ci_runs demoCommits demoAuthor
              demoMessage))).get ⟨1, hi⟩ = "fixup " ++ rest) ∧
        ∃ j, j < 1 ∧ ∃ hj : j < (render_lines (make_squash_plan demoCommits
            (partition_ci_runs demoCommits demoAuthor
              demoMessage))).length,
          ∃ rest2, (render_lines (make_squash_plan demoCommits
            (partition_ci_runs demoCommits demoAuthor
              demoMessage))).get ⟨j, hj⟩ = "pick " ++ rest2 := by
  refine ⟨by decide, ?_⟩
  have hi : 1 < (render_lines (make_squash_plan demoCommits
      (partition_ci_runs demoCommits demoAuthor demoMessage))).length := by
    decide
  refine ⟨hi, ⟨"b2 CI: run", rfl⟩, ?_⟩
  exact fold_preceded_by_keep demoCommits demoAuthor demoMessage (by decide)
    1 hi ⟨"b2 CI: run", rfl⟩

/-! ### Newlines in the rendered output -/

theorem intercalate_go_data (s : String) (l : List String) (acc : String) :
    (String.intercalate.go acc s l).data =
      acc.data ++ (l.map (fun x => s.data ++ x.data)).flatten := by
  induction l generalizing acc with
  | nil => simp [String.intercalate.go]
  | cons a as ih =>
    rw [String.intercalate.go, ih]
    simp [String.data_append]

theorem intercalate_data (s a : String) (l : List String) :
    (String.intercalate s (a :: l)).data =
      a.data ++ (l.map (fun x => s.data ++ x.data)).flatten := by
  rw [String.intercalate, intercalate_go_data]

theorem sum_map_add_one {α : Type} (g : α → Nat) (l : List α) :
    (l.map (fun x => g x + 1)).sum = (l.map g).sum + l.length := by
  induction l with
  | nil => simp
  | cons a as ih =>
    simp [ih]
    omega

theorem count_intercalate_newline (a : String) (l : List String) :
    ((String.intercalate "\n" (a :: l)).data.count '\n') =
      ((a :: l).map (fun x => x.data.count '\n')).sum + l.length := by
  rw [intercalate_data, List.count_append, List.count_flatten, List.map_map]
  have he : ((List.count '\n') ∘ fun x : String => ("\n").data ++ x.data) =
      fun x : String => x.data.count '\n' + 1 := by
    funext x
    have h1 : (("\n" : String).data) = ['\n'] := rfl
    simp [Function.comp, h1, List.count_cons]
  rw [he, sum_map_add_one, List.map_cons, List.sum_cons]
  omega

/-- C10: each commit's message is embedded verbatim as the final segment of
its instruction line; consequently, if some commit's message contains a
newline character, the rendered output contains strictly more newline
characters (newline-terminated physical lines) than there are commits in
the plan. -/
theorem render_multiline_message_spec (plan : SquashPlan)
    (hmsg : ∃ c ∈ plan.commits, '\n' ∈ c.message.data) :
    (∀ c, ∃ pre, todoLine plan c = pre ++ c.message) ∧
    plan.commits.length < ((render_todo_lines plan).data.count '\n') := by
  constructor
  · intro c
    exact ⟨(if c.oid ∈ plan.squash_set then "fixup" else "pick") ++ " " ++
      c.short_id ++ " ", rfl⟩
  · obtain ⟨c0, hc0, hnl⟩ := hmsg
    have hmem : todoLine plan c0 ∈ render_lines plan := by
      rw [render_lines_eq_map]
      exact List.mem_map_of_mem _ hc0
    have hleneq : (render_lines plan).length = plan.commits.length := by
      rw [render_lines_eq_map, List.length_map]
    cases hlines : render_lines plan with
    | nil =>
      rw [hlines] at hmem
      cases hmem
    | cons a as =>
      have hlen : plan.commits.length = as.length + 1 := by
        rw [hlines] at hleneq
        simpa using hleneq.symm
      rw [render_todo_lines, hlines, String.data_append, List.count_append,
        count_intercalate_newline]
      have h2 : ((("\n" : String)).data.count '\n') = 1 := by decide
      rw [h2]
      have hline_mem : todoLine plan c0 ∈ a :: as := hlines ▸ hmem
      have hcnt_line : 1 ≤ (todoLine plan c0).data.count '\n' := by
        have hsplit : todoLine plan c0 =
            ((if c0.oid ∈ plan.squash_set then "fixup" else "pick") ++ " " ++
              c0.short_id ++ " ") ++ c0.message := rfl
        rw [hsplit, String.data_append, List.count_append]
        have hpos := List.count_pos_iff.mpr hnl
        omega
      have hsum : 1 ≤ ((a :: as).map (fun x => x.data.count '\n')).sum :=
        le_trans hcnt_line
          (le_sum_map_of_mem (fun x => x.data.count '\n') hline_mem)
      omega

/-- Witness for C10 on a one-commit plan whose message contains a
newline. -/
theorem render_multiline_message_spec_witness :
    (∃ c ∈ mlPlan.commits, '\n' ∈ c.message.data) ∧
    ((∀ c, ∃ pre, todoLine mlPlan c = pre ++ c.message) ∧
      mlPlan.commits.length <
        ((render_todo_lines mlPlan).data.count '\n')) :=
  ⟨⟨mlCommit, by decide, by decide⟩,
    render_multiline_message_spec mlPlan ⟨mlCommit, by decide, by decide⟩⟩

end CollapseCI
